import Mathlib

/-!
# Verification of the GCF search engine (`enumerate_over_gcf.py`)

Shallow embedding of the core of the MasseyRamanujan search engine:
the LHS hash table (`LHSHashTable.__init__`), the first enumeration
(`EnumerateOverGCF.__first_enumeration`), the refinement / verifier
(`EnumerateOverGCF.__refine_results`), `find_hits`, and the work
partitioner (`multi_core_enumeration` / `multi_core_enumeration_wrapper`).

Modelling conventions:
* mpmath floating-point values are modelled as exact rationals `ℚ`;
  consequently `mpmath.isnan`/`mpmath.isinf` checks never fire (a quotient
  of rationals with non-zero denominator is always finite) and are omitted.
* `mpmath.almosteq` (a tolerance comparison) is abstracted as a Boolean
  parameter `aeq : ℚ → ℚ → Bool`; theorems hold for every such comparison.
* `mpmath.nstr(·, 100)` (formatting to 100 significant digits) is abstracted
  as a parameter `fmt : ℚ → String`.
* the external series generator (`create_series_from_compact_poly`) and the
  external continued-fraction evaluator (`EfficientGCF(...).evaluate()`) are
  parameters; the evaluator returns `Except Unit ℚ`, an `.error` modelling
  a raised exception (e.g. a division by zero inside mpmath).
* Python's `int(x)` on a real truncates toward zero; this is `pyInt` below.
-/

set_option autoImplicit false
set_option maxRecDepth 8000

namespace GCFSearch

/-- Python's `int(q)` for a real `q`: truncation toward zero
(`int(-0.5) = 0`, not `-1`). -/
def pyInt (q : ℚ) : ℤ :=
  if 0 ≤ q then ⌊q⌋ else -⌊-q⌋

/-- The hash key used both by `LHSHashTable.__init__` (line 73) and by
`__first_enumeration` (lines 231/250): `int(val / threshold)`. -/
def hashKey (threshold v : ℚ) : ℤ :=
  pyInt (v / threshold)

/-- A 2×2 integer coefficient matrix `[[a, b], [c, d]]` for the Möbius
transform `x ↦ (a·x + b)/(c·x + d)`, the value stored in the LHS table. -/
structure Mat2 where
  a : ℤ
  b : ℤ
  c : ℤ
  d : ℤ
  deriving DecidableEq, Repr

/-- Embedding of `gcd(gcd(a, b), gcd(c, d))` as computed with Python's
`math.gcd` (always non-negative). -/
def gcd4 (a b c d : ℤ) : ℕ :=
  Nat.gcd (Int.gcd a b) (Int.gcd c d)

/-- Numerator `a·x + b` of the Möbius transform at `x`. -/
def mobiusNum (m : Mat2) (x : ℚ) : ℚ :=
  m.a * x + m.b

/-- Denominator `c·x + d` of the Möbius transform at `x`. -/
def mobiusDen (m : Mat2) (x : ℚ) : ℚ :=
  m.c * x + m.d

/-- Value `(a·x + b)/(c·x + d)` of the candidate transform at the constant
(`val = numerator / denominator`, line 67). -/
def lhsVal (m : Mat2) (c0 : ℚ) : ℚ :=
  mobiusNum m c0 / mobiusDen m c0

/-- All `(a, b, c, d)` candidates enumerated by the four nested loops of
`LHSHashTable.__init__` (lines 57–60), in loop order, each packaged as the
matrix `[[a, b], [c, d]]` it would be stored as (line 76). -/
def lhsTuples (top bot : List ℤ) : List Mat2 :=
  top.flatMap fun a => top.flatMap fun b => bot.flatMap fun c => bot.map fun d => ⟨a, b, c, d⟩

/-- The body of the quadruple loop of `LHSHashTable.__init__` (lines 61–76),
acting on the accumulated table `s` (an association list in insertion
order).  `c0` is the constant value, `θ` the threshold, `aeq` models
`mpmath.almosteq`.  The `mpmath.isnan`/`isinf` safety check of line 68 is
omitted: it cannot fire on exact rationals. -/
def lhsStep (c0 θ : ℚ) (aeq : ℚ → ℚ → Bool) (s : List (ℤ × Mat2))
    (m : Mat2) : List (ℤ × Mat2) :=
  if gcd4 m.a m.b m.c m.d ≠ 1 then s
  else if mobiusDen m c0 = 0 ∨ mobiusNum m c0 = 0 then s
  else if ((m.c : ℚ) + m.d ≠ 0) ∧
      aeq (lhsVal m c0) (((m.a : ℚ) + m.b) / ((m.c : ℚ) + m.d)) = true then s
  else if (s.lookup (hashKey θ (lhsVal m c0))).isSome then s
  else s ++ [(hashKey θ (lhsVal m c0), m)]

/-- Embedding of `LHSHashTable.__init__` (lines 55–76): build the table by
folding the loop body over all candidate tuples. -/
def buildLHSTable (top bot : List ℤ) (c0 θ : ℚ) (aeq : ℚ → ℚ → Bool) :
    List (ℤ × Mat2) :=
  (lhsTuples top bot).foldl (lhsStep c0 θ aeq) []

/-- Acceptance condition of the filters of `LHSHashTable.__init__`
(lines 61–72): a candidate matrix survives to the key-insertion step iff
`gcd(a,b,c,d) = 1`, denominator and numerator at the constant are non-zero,
and, when `c + d ≠ 0`, the value is not `almosteq` to the transform at
`x = 1`. -/
def lhsAccepts (c0 : ℚ) (aeq : ℚ → ℚ → Bool) (m : Mat2) : Prop :=
  gcd4 m.a m.b m.c m.d = 1 ∧ mobiusDen m c0 ≠ 0 ∧ mobiusNum m c0 ≠ 0 ∧
    ((m.c : ℚ) + m.d ≠ 0 →
      aeq (lhsVal m c0) (((m.a : ℚ) + m.b) / ((m.c : ℚ) + m.d)) = false)

instance (c0 : ℚ) (aeq : ℚ → ℚ → Bool) (m : Mat2) :
    Decidable (lhsAccepts c0 aeq m) := by
  unfold lhsAccepts; infer_instance

/-- The `a, b` range `range(lhs_limit + 1)` of `EnumerateOverGCF.__init__`
(line 164): the integers `0, 1, …, L`. -/
def rangeTop (L : ℕ) : List ℤ :=
  (List.range (L + 1)).map (Nat.cast : ℕ → ℤ)

/-- The `c, d` range `range(-lhs_limit, lhs_limit + 1)` of
`EnumerateOverGCF.__init__` (line 165): the integers `-L, …, L`. -/
def rangeBot (L : ℕ) : List ℤ :=
  (List.range (2 * L + 1)).map fun n => (Nat.cast n - Nat.cast L : ℤ)

/-- Intermediate result of the first enumeration (source line 22):
`Match = namedtuple('Match', 'lhs_coefs rhs_an_poly rhs_bn_poly')`. -/
structure Match where
  lhs_coefs : Mat2
  rhs_an_poly : List ℤ
  rhs_bn_poly : List ℤ
  deriving DecidableEq, Repr

/-- Modelled from the spec: `MobiusTransform.__call__` lives in the external
`mobius` module, which is not part of this repository's sources.  Per the
spec it is the rational map `x ↦ (a·x + b)/(c·x + d)`, whose evaluation
"is undefined (division by zero)" exactly when the denominator vanishes;
the raised `ZeroDivisionError` is modelled as `.error ()`. -/
def mobiusApply (m : Mat2) (x : ℚ) : Except Unit ℚ :=
  if mobiusDen m x = 0 then .error ()
  else .ok (mobiusNum m x / mobiusDen m x)

/-- The body of the loop of `EnumerateOverGCF.__refine_results`
(lines 277–295) for one `Match`, deciding its fate:
`.ok true` — keep it; `.ok false` — drop it (`continue`); `.error` — an
uncaught exception escapes the loop.  The `try`/`except ZeroDivisionError`
of lines 278–286 covers only the two Möbius-transform evaluations; the
continued-fraction re-evaluation of lines 289–293 is outside it, so a
failure there propagates.  `genA`/`genB` model the external series
generators, `gcfEval` the external `EfficientGCF(an, bn).evaluate()`
(fallible), `fmt` models `mpmath.nstr(·, 100)`, and `aeq` models
`mpmath.almosteq` at tolerance `1/(verify_dps // 20)`.  `mpmath.isinf`/
`isnan` (line 280) cannot fire on exact rationals and is omitted. -/
def refineOne (c0 : ℚ) (aeq : ℚ → ℚ → Bool)
    (genA genB : List ℤ → ℕ → List ℤ)
    (gcfEval : List ℤ → List ℤ → Except Unit ℚ)
    (fmt : ℚ → String) (r : Match) : Except Unit Bool :=
  match mobiusApply r.lhs_coefs c0 with
  | .error _ => .ok false
  | .ok val =>
    match mobiusApply r.lhs_coefs 1 with
    | .error _ => .ok false
    | .ok v1 =>
      if aeq val v1 then .ok false
      else
        let an := genA r.rhs_an_poly 1000
        let bn := genB r.rhs_bn_poly 1000
        match gcfEval an bn with
        | .error e => .error e
        | .ok rhsVal => .ok (decide (fmt val = fmt rhsVal))

/-- Embedding of `EnumerateOverGCF.__refine_results` (lines 262–296): filter the
intermediate results, keeping those `refineOne` accepts; an uncaught
exception in `refineOne` aborts the whole loop. -/
def refineResults (c0 : ℚ) (aeq : ℚ → ℚ → Bool)
    (genA genB : List ℤ → ℕ → List ℤ)
    (gcfEval : List ℤ → List ℤ → Except Unit ℚ)
    (fmt : ℚ → String) : List Match → Except Unit (List Match)
  | [] => .ok []
  | r :: rs =>
    match refineOne c0 aeq genA genB gcfEval fmt r with
    | .error e => .error e
    | .ok keep =>
      match refineResults c0 aeq genA genB gcfEval fmt rs with
      | .error e => .error e
      | .ok rest => .ok (if keep then r :: rest else rest)

/-- Embedding of `EnumerateOverGCF.__number_of_elements` (lines 173–178). -/
def numberOfElements (permutationOptions : List (List ℤ)) : ℕ :=
  permutationOptions.foldl (fun res l => res * l.length) 1

/-- Embedding of `itertools.product(*poly)`: all coefficient assignments, one value per
term range, in lexicographic enumeration order. -/
def listProduct : List (List ℤ) → List (List ℤ)
  | [] => [[]]
  | l :: rest => l.flatMap fun x => (listProduct rest).map fun xs => x :: xs

/-- Embedding of `EnumerateOverGCF.__create_series_list` (lines 180–190): generate the
series for every coefficient assignment, then drop every assignment whose
series contains a zero term.  Returns `(coef_list, series_list)`. -/
def createSeriesList (gen : List ℤ → ℕ → List ℤ) (coefs : List (List ℤ)) :
    List (List ℤ) × List (List ℤ) :=
  let kept := (coefs.map fun c => (c, gen c 32)).filter fun p => decide ((0 : ℤ) ∉ p.2)
  (kept.map Prod.fst, kept.map Prod.snd)

/-- Inner loop of the `size_a > size_b` branch of `__first_enumeration`
(lines 229–233): for a fixed `an` series and `a_coef`, probe the table with
every cached `(bn, b_coef)` pair.  The evaluation `gcf.evaluate()` and the
key computation run under no exception handler, so a failing evaluation
(`.error`) propagates. -/
def enumInnerA (gcfEval : List ℤ → List ℤ → Except Unit ℚ)
    (table : List (ℤ × Mat2)) (θ : ℚ) (an aCoef : List ℤ) :
    List (List ℤ × List ℤ) → Except Unit (List Match)
  | [] => .ok []
  | (bn, bCoef) :: rest =>
    match gcfEval an bn with
    | .error e => .error e
    | .ok v =>
      match enumInnerA gcfEval table θ an aCoef rest with
      | .error e => .error e
      | .ok more =>
        match table.lookup (hashKey θ v) with
        | some m => .ok (⟨m, aCoef, bCoef⟩ :: more)
        | none => .ok more

/-- Outer loop of the `size_a > size_b` branch (lines 225–237): stream the
`a` coefficients, skipping any whose series contains a zero term. -/
def enumOuterA (genA : List ℤ → ℕ → List ℤ)
    (gcfEval : List ℤ → List ℤ → Except Unit ℚ)
    (table : List (ℤ × Mat2)) (θ : ℚ) (bPairs : List (List ℤ × List ℤ)) :
    List (List ℤ) → Except Unit (List Match)
  | [] => .ok []
  | aCoef :: rest =>
    let an := genA aCoef 32
    if (0 : ℤ) ∈ an then enumOuterA genA gcfEval table θ bPairs rest
    else
      match enumInnerA gcfEval table θ an aCoef bPairs with
      | .error e => .error e
      | .ok here =>
        match enumOuterA genA gcfEval table θ bPairs rest with
        | .error e => .error e
        | .ok more => .ok (here ++ more)

/-- Inner loop of the `size_a ≤ size_b` branch (lines 248–252): for a fixed
`bn` series and `b_coef`, probe the table with every cached `(an, a_coef)`
pair. -/
def enumInnerB (gcfEval : List ℤ → List ℤ → Except Unit ℚ)
    (table : List (ℤ × Mat2)) (θ : ℚ) (bn bCoef : List ℤ) :
    List (List ℤ × List ℤ) → Except Unit (List Match)
  | [] => .ok []
  | (an, aCoef) :: rest =>
    match gcfEval an bn with
    | .error e => .error e
    | .ok v =>
      match enumInnerB gcfEval table θ bn bCoef rest with
      | .error e => .error e
      | .ok more =>
        match table.lookup (hashKey θ v) with
        | some m => .ok (⟨m, aCoef, bCoef⟩ :: more)
        | none => .ok more

/-- Outer loop of the `size_a ≤ size_b` branch (lines 244–256): stream the
`b` coefficients, skipping any whose series contains a zero term. -/
def enumOuterB (genB : List ℤ → ℕ → List ℤ)
    (gcfEval : List ℤ → List ℤ → Except Unit ℚ)
    (table : List (ℤ × Mat2)) (θ : ℚ) (aPairs : List (List ℤ × List ℤ)) :
    List (List ℤ) → Except Unit (List Match)
  | [] => .ok []
  | bCoef :: rest =>
    let bn := genB bCoef 32
    if (0 : ℤ) ∈ bn then enumOuterB genB gcfEval table θ aPairs rest
    else
      match enumInnerB gcfEval table θ bn bCoef aPairs with
      | .error e => .error e
      | .ok here =>
        match enumOuterB genB gcfEval table θ aPairs rest with
        | .error e => .error e
        | .ok more => .ok (here ++ more)

/-- Embedding of `EnumerateOverGCF.__first_enumeration` (lines 192–260): enumerate all
`a`-side assignments against all `b`-side assignments (the `b` side doubled
by term-wise negation, line 211–212), cache the smaller side filtered of
zero-containing series, stream the larger side, and collect table hits. -/
def firstEnumeration (genA genB : List ℤ → ℕ → List ℤ)
    (gcfEval : List ℤ → List ℤ → Except Unit ℚ)
    (table : List (ℤ × Mat2)) (θ : ℚ)
    (polyA polyB : List (List ℤ)) : Except Unit (List Match) :=
  let aCoefIter := listProduct polyA
  let negPolyB := polyB.map fun l => l.map fun x => -x
  let bCoefIter := listProduct polyB ++ listProduct negPolyB
  let sizeA := numberOfElements polyA
  let sizeB := 2 * numberOfElements polyB
  if sizeA > sizeB then
    let pb := createSeriesList genB bCoefIter
    enumOuterA genA gcfEval table θ (pb.2.zip pb.1) aCoefIter
  else
    let pa := createSeriesList genA aCoefIter
    enumOuterB genB gcfEval table θ (pa.2.zip pa.1) bCoefIter

/-- Embedding of `EnumerateOverGCF.find_hits` (lines 338–363): first enumeration
followed by refinement. -/
def findHits (c0 : ℚ) (aeq : ℚ → ℚ → Bool)
    (genA genB : List ℤ → ℕ → List ℤ)
    (gcfEval : List ℤ → List ℤ → Except Unit ℚ)
    (fmt : ℚ → String) (table : List (ℤ × Mat2)) (θ : ℚ)
    (polyA polyB : List (List ℤ)) : Except Unit (List Match) :=
  match firstEnumeration genA genB gcfEval table θ polyA polyB with
  | .error e => .error e
  | .ok results => refineResults c0 aeq genA genB gcfEval fmt results

/-- Python's slice `l[lo:hi]` for `0 ≤ lo ≤ hi` (out-of-range bounds
clamp). -/
def pySlice {α : Type} (l : List α) (lo hi : ℕ) : List α :=
  (l.drop lo).take (hi - lo)

/-- Python's slice `l[lo:]` for `0 ≤ lo`. -/
def pySliceFrom {α : Type} (l : List α) (lo : ℕ) : List α :=
  l.drop lo

/-- The slice of one partitioned dimension assigned to worker `index` out
of `numCores`, as computed by `multi_core_enumeration` (lines 390–393):
the last worker takes `poly_a[s][index*tile:]`, every other worker takes
`poly_a[s][index*tile:(index+1)*tile]`. -/
def workerSlice {α : Type} (l : List α) (tile numCores index : ℕ) : List α :=
  if index = numCores - 1 then pySliceFrom l (index * tile)
  else pySlice l (index * tile) ((index + 1) * tile)

/-- The loop of `multi_core_enumeration` (lines 389–393), position `s`
onward: replace `poly_a[s]` by worker `index`'s slice for each entry of
`splits`, leaving the remaining dimensions untouched. -/
def applySplitsAux (numCores index : ℕ) : List ℕ → ℕ → List (List ℤ) →
    List (List ℤ)
  | [], _, polyA => polyA
  | tile :: rest, s, polyA =>
    applySplitsAux numCores index rest (s + 1)
      (polyA.set s (workerSlice (polyA.getD s []) tile numCores index))

/-- The in-place update of `poly_a` performed by `multi_core_enumeration`
(lines 389–393), rendered as the list `poly_a` holds after the loop. -/
def applySplits (splits : List ℕ) (numCores index : ℕ)
    (polyA : List (List ℤ)) : List (List ℤ) :=
  applySplitsAux numCores index splits 0 polyA

/-- The pair `(poly_a, poly_b)` as the caller of `multi_core_enumeration`
observes it after the slicing loop: `poly_a` rebound dimension-by-dimension,
`poly_b` never assigned. -/
def multiCoreSliceState (splits : List ℕ) (numCores index : ℕ)
    (polyA polyB : List (List ℤ)) : List (List ℤ) × List (List ℤ) :=
  (applySplits splits numCores index polyA, polyB)

/-- The shape of the value `multi_core_enumeration_wrapper` returns:
either one worker's flat result list (the `num_cores == 1` branch,
line 449) or the list of per-worker result lists that `pool.map` yields
(line 453). -/
inductive WrapperResult where
  | single : List Match → WrapperResult
  | perWorker : List (List Match) → WrapperResult
  deriving DecidableEq, Repr

/-- The aggregation logic of `multi_core_enumeration_wrapper`
(lines 448–456), with `func i` the result list of worker `i`
(`partial(multi_core_enumeration, …)`): `func 0` directly when
`num_cores == 1`, otherwise `pool.map(func, range(num_cores))`. -/
def multiCoreEnumerationWrapper (func : ℕ → List Match) (numCores : ℕ) :
    WrapperResult :=
  if numCores = 1 then .single (func 0)
  else .perWorker ((List.range numCores).map func)

/-! ## Lemmas about the LHS table construction -/

lemma lookup_isSome_iff {k : ℤ} {s : List (ℤ × Mat2)} :
    (s.lookup k).isSome = true ↔ k ∈ s.map Prod.fst := by
  induction s with
  | nil => simp
  | cons p rest ih =>
    obtain ⟨k', m⟩ := p
    rw [List.lookup_cons, List.map_cons, List.mem_cons]
    rcases eq_or_ne k k' with rfl | h
    · simp
    · rw [beq_eq_false_iff_ne.mpr h]
      exact ih.trans (or_iff_right h).symm

lemma mem_lhsStep {c0 θ : ℚ} {aeq : ℚ → ℚ → Bool} {s : List (ℤ × Mat2)}
    {m : Mat2} {km : ℤ × Mat2} (h : km ∈ lhsStep c0 θ aeq s m) :
    km ∈ s ∨ (lhsAccepts c0 aeq m ∧ km = (hashKey θ (lhsVal m c0), m)) := by
  unfold lhsStep at h
  split_ifs at h with h1 h2 h3 h4
  · exact Or.inl h
  · exact Or.inl h
  · exact Or.inl h
  · exact Or.inl h
  · rcases List.mem_append.mp h with hs | hnew
    · exact Or.inl hs
    · refine Or.inr ⟨⟨not_not.mp h1, ?_, ?_, fun hcd => ?_⟩, List.mem_singleton.mp hnew⟩
      · exact fun hd => h2 (Or.inl hd)
      · exact fun hn => h2 (Or.inr hn)
      · cases hb : aeq (lhsVal m c0) (((m.a : ℚ) + m.b) / ((m.c : ℚ) + m.d)) with
        | false => rfl
        | true => exact absurd ⟨hcd, hb⟩ h3

lemma mem_lhsFold {c0 θ : ℚ} {aeq : ℚ → ℚ → Bool} {km : ℤ × Mat2} :
    ∀ {ts : List Mat2} {s : List (ℤ × Mat2)},
      km ∈ ts.foldl (lhsStep c0 θ aeq) s →
      km ∈ s ∨ ∃ m ∈ ts, lhsAccepts c0 aeq m ∧ km = (hashKey θ (lhsVal m c0), m) := by
  intro ts
  induction ts with
  | nil => intro s h; exact Or.inl h
  | cons m ts ih =>
    intro s h
    rcases ih (by simpa using h) with hstep | ⟨m', hm', hacc, hkm⟩
    · rcases mem_lhsStep hstep with hs | ⟨hacc, hkm⟩
      · exact Or.inl hs
      · exact Or.inr ⟨m, List.mem_cons_self m ts, hacc, hkm⟩
    · exact Or.inr ⟨m', List.mem_cons_of_mem m hm', hacc, hkm⟩

lemma mem_buildLHSTable {top bot : List ℤ} {c0 θ : ℚ} {aeq : ℚ → ℚ → Bool}
    {km : ℤ × Mat2} (h : km ∈ buildLHSTable top bot c0 θ aeq) :
    ∃ m ∈ lhsTuples top bot,
      lhsAccepts c0 aeq m ∧ km = (hashKey θ (lhsVal m c0), m) := by
  rcases mem_lhsFold h with hnil | hex
  · simp at hnil
  · exact hex

/-- C1: every entry `(key, [[a,b],[c,d]])` stored by `LHSHashTable.__init__`
satisfies `gcd(a,b,c,d) = 1`, has non-zero denominator `c·const + d` and
non-zero numerator `a·const + b` (hence the evaluated ratio is a finite
rational), and — whenever the transform is defined at `x = 1`, i.e.
`c + d ≠ 0` — the ratio is not within the `almosteq` tolerance of the
transform's value `(a+b)/(c+d)` at `x = 1`. -/
theorem lhs_table_entry_invariant (top bot : List ℤ) (c0 θ : ℚ)
    (aeq : ℚ → ℚ → Bool) (k : ℤ) (m : Mat2)
    (h : (k, m) ∈ buildLHSTable top bot c0 θ aeq) :
    gcd4 m.a m.b m.c m.d = 1 ∧ mobiusDen m c0 ≠ 0 ∧ mobiusNum m c0 ≠ 0 ∧
      ((m.c : ℚ) + m.d ≠ 0 →
        aeq (lhsVal m c0) (((m.a : ℚ) + m.b) / ((m.c : ℚ) + m.d)) = false) := by
  rcases mem_buildLHSTable h with ⟨m', _, hacc, hkm⟩
  obtain ⟨rfl, rfl⟩ : k = hashKey θ (lhsVal m' c0) ∧ m = m' := by
    constructor <;> [exact congrArg Prod.fst hkm; exact congrArg Prod.snd hkm]
  exact hacc

/-- Witness for C1 at a concrete build: the table for ranges
`a, b ∈ [0, 1]`, `c, d ∈ [-1, 1]`, constant `1/3`, threshold `1`. -/
theorem lhs_table_entry_invariant_witness :
    (((0 : ℤ), (⟨0, 1, -1, -1⟩ : Mat2)) ∈
        buildLHSTable [0, 1] [-1, 0, 1] (1/3) 1 (fun _ _ => false)) ∧
      (gcd4 0 1 (-1) (-1) = 1 ∧
        mobiusDen ⟨0, 1, -1, -1⟩ (1/3) ≠ 0 ∧
        mobiusNum ⟨0, 1, -1, -1⟩ (1/3) ≠ 0 ∧
        (((-1 : ℤ) : ℚ) + ((-1 : ℤ) : ℚ) ≠ 0 →
          (fun (_ _ : ℚ) => false) (lhsVal ⟨0, 1, -1, -1⟩ (1/3))
            ((((0 : ℤ) : ℚ) + ((1 : ℤ) : ℚ)) / (((-1 : ℤ) : ℚ) + ((-1 : ℤ) : ℚ))) = false)) :=
  ⟨by with_unfolding_all exact of_decide_eq_true rfl,
    lhs_table_entry_invariant [0, 1] [-1, 0, 1] (1/3) 1
      (fun _ _ => false) 0 ⟨0, 1, -1, -1⟩
      (by with_unfolding_all exact of_decide_eq_true rfl)⟩

/-- C2 counterexample: the claim says stored keys are the mathematical
floor of `value / threshold` even for negative values.  In the table for
ranges `a, b ∈ [0, 1]`, `c, d ∈ [-1, 1]`, constant `1/3`, threshold `1`,
the matrix `[[0, 1], [-1, -1]]` (value `-3/4`) is stored under key `0`
(Python's `int` truncates toward zero), while `⌊-3/4⌋ = -1 ≠ 0`. -/
theorem lhs_key_floor_counterexample :
    (((0 : ℤ), (⟨0, 1, -1, -1⟩ : Mat2)) ∈
        buildLHSTable [0, 1] [-1, 0, 1] (1/3) 1 (fun _ _ => false)) ∧
      ⌊lhsVal (⟨0, 1, -1, -1⟩ : Mat2) (1/3) / 1⌋ ≠ (0 : ℤ) :=
  ⟨by with_unfolding_all exact of_decide_eq_true rfl,
    by with_unfolding_all exact of_decide_eq_true rfl⟩

/-- C2 amended: every key stored by `LHSHashTable.__init__` equals
`int(value / threshold)`, Python's truncation toward zero of
`value / threshold` — which coincides with the mathematical floor whenever
the quotient is non-negative, but not in general for negative quotients. -/
theorem lhs_key_is_truncation (top bot : List ℤ) (c0 θ : ℚ)
    (aeq : ℚ → ℚ → Bool) (k : ℤ) (m : Mat2)
    (h : (k, m) ∈ buildLHSTable top bot c0 θ aeq) :
    k = pyInt (lhsVal m c0 / θ) ∧
      (0 ≤ lhsVal m c0 / θ → k = ⌊lhsVal m c0 / θ⌋) := by
  rcases mem_buildLHSTable h with ⟨m', _, _, hkm⟩
  obtain ⟨rfl, rfl⟩ : k = hashKey θ (lhsVal m' c0) ∧ m = m' := by
    constructor <;> [exact congrArg Prod.fst hkm; exact congrArg Prod.snd hkm]
  refine ⟨rfl, fun hq => ?_⟩
  unfold hashKey pyInt
  rw [if_pos hq]

/-- Witness for the amended C2 at a stored entry with non-negative value:
key `1` for matrix `[[0, 1], [-1, 1]]` (value `3/2`). -/
theorem lhs_key_is_truncation_witness :
    (((1 : ℤ), (⟨0, 1, -1, 1⟩ : Mat2)) ∈
        buildLHSTable [0, 1] [-1, 0, 1] (1/3) 1 (fun _ _ => false)) ∧
      ((1 : ℤ) = pyInt (lhsVal (⟨0, 1, -1, 1⟩ : Mat2) (1/3) / 1) ∧
        (0 ≤ lhsVal (⟨0, 1, -1, 1⟩ : Mat2) (1/3) / 1 →
          (1 : ℤ) = ⌊lhsVal (⟨0, 1, -1, 1⟩ : Mat2) (1/3) / 1⌋)) :=
  ⟨by with_unfolding_all exact of_decide_eq_true rfl,
    lhs_key_is_truncation [0, 1] [-1, 0, 1] (1/3) 1 (fun _ _ => false)
      1 ⟨0, 1, -1, 1⟩ (by with_unfolding_all exact of_decide_eq_true rfl)⟩

/-! ## Key-set characterization of the LHS table (for C8) -/

lemma lhsAccepts_iff_conds {c0 : ℚ} {aeq : ℚ → ℚ → Bool} {m : Mat2} :
    lhsAccepts c0 aeq m ↔
      ¬(gcd4 m.a m.b m.c m.d ≠ 1) ∧
        ¬(mobiusDen m c0 = 0 ∨ mobiusNum m c0 = 0) ∧
        ¬(((m.c : ℚ) + m.d ≠ 0) ∧
          aeq (lhsVal m c0) (((m.a : ℚ) + m.b) / ((m.c : ℚ) + m.d)) = true) := by
  constructor
  · rintro ⟨hg, hd, hn, hi⟩
    refine ⟨not_not_intro hg, not_or.mpr ⟨hd, hn⟩, ?_⟩
    rintro ⟨hcd, ht⟩
    rw [hi hcd] at ht
    cases ht
  · rintro ⟨h1, h2, h3⟩
    refine ⟨not_not.mp h1, (not_or.mp h2).1, (not_or.mp h2).2, fun hcd => ?_⟩
    cases hb : aeq (lhsVal m c0) (((m.a : ℚ) + m.b) / ((m.c : ℚ) + m.d)) with
    | false => rfl
    | true => exact absurd ⟨hcd, hb⟩ h3

lemma keys_lhsStep {c0 θ : ℚ} {aeq : ℚ → ℚ → Bool} {s : List (ℤ × Mat2)}
    {m : Mat2} {k : ℤ} :
    k ∈ (lhsStep c0 θ aeq s m).map Prod.fst ↔
      k ∈ s.map Prod.fst ∨
        (lhsAccepts c0 aeq m ∧ k = hashKey θ (lhsVal m c0)) := by
  unfold lhsStep
  split_ifs with h1 h2 h3 h4
  · exact ⟨Or.inl, fun h => h.elim id fun hacc =>
      absurd h1 (lhsAccepts_iff_conds.mp hacc.1).1⟩
  · exact ⟨Or.inl, fun h => h.elim id fun hacc =>
      absurd h2 (lhsAccepts_iff_conds.mp hacc.1).2.1⟩
  · exact ⟨Or.inl, fun h => h.elim id fun hacc =>
      absurd h3 (lhsAccepts_iff_conds.mp hacc.1).2.2⟩
  · refine ⟨Or.inl, fun h => h.elim id fun hacc => ?_⟩
    rw [hacc.2]
    exact lookup_isSome_iff.mp h4
  · rw [List.map_append, List.mem_append]
    have hacc : lhsAccepts c0 aeq m := lhsAccepts_iff_conds.mpr ⟨h1, h2, h3⟩
    constructor
    · rintro (hs | hk)
      · exact Or.inl hs
      · exact Or.inr ⟨hacc, by simpa using hk⟩
    · rintro (hs | ⟨_, hk⟩)
      · exact Or.inl hs
      · exact Or.inr (by simpa using hk)

lemma keys_lhsFold {c0 θ : ℚ} {aeq : ℚ → ℚ → Bool} {k : ℤ} :
    ∀ {ts : List Mat2} {s : List (ℤ × Mat2)},
      k ∈ (ts.foldl (lhsStep c0 θ aeq) s).map Prod.fst ↔
        k ∈ s.map Prod.fst ∨
          ∃ m ∈ ts, lhsAccepts c0 aeq m ∧ k = hashKey θ (lhsVal m c0) := by
  intro ts
  induction ts with
  | nil => intro s; simp
  | cons m ts ih =>
    intro s
    rw [List.foldl_cons, ih, keys_lhsStep]
    constructor
    · rintro ((hs | hacc) | ⟨m', hm', h⟩)
      · exact Or.inl hs
      · exact Or.inr ⟨m, List.mem_cons_self m ts, hacc⟩
      · exact Or.inr ⟨m', List.mem_cons_of_mem m hm', h⟩
    · rintro (hs | ⟨m', hm', h⟩)
      · exact Or.inl (Or.inl hs)
      · rcases List.mem_cons.mp hm' with rfl | hm'
        · exact Or.inl (Or.inr h)
        · exact Or.inr ⟨m', hm', h⟩

lemma mem_keys_buildLHSTable {top bot : List ℤ} {c0 θ : ℚ}
    {aeq : ℚ → ℚ → Bool} {k : ℤ} :
    k ∈ (buildLHSTable top bot c0 θ aeq).map Prod.fst ↔
      ∃ m ∈ lhsTuples top bot,
        lhsAccepts c0 aeq m ∧ k = hashKey θ (lhsVal m c0) := by
  rw [buildLHSTable, keys_lhsFold]
  simp

lemma mem_lhsTuples {top bot : List ℤ} {m : Mat2} :
    m ∈ lhsTuples top bot ↔
      m.a ∈ top ∧ m.b ∈ top ∧ m.c ∈ bot ∧ m.d ∈ bot := by
  obtain ⟨a, b, c, d⟩ := m
  simp only [lhsTuples, List.mem_flatMap, List.mem_map, Mat2.mk.injEq]
  constructor
  · rintro ⟨a', ha', b', hb', c', hc', d', hd', rfl, rfl, rfl, rfl⟩
    exact ⟨ha', hb', hc', hd'⟩
  · rintro ⟨ha, hb, hc, hd⟩
    exact ⟨a, ha, b, hb, c, hc, d, hd, rfl, rfl, rfl, rfl⟩

lemma mem_rangeTop {L : ℕ} {x : ℤ} :
    x ∈ rangeTop L ↔ 0 ≤ x ∧ x ≤ (L : ℤ) := by
  simp only [rangeTop, List.mem_map, List.mem_range]
  constructor
  · rintro ⟨n, hn, rfl⟩
    omega
  · rintro ⟨h0, hL⟩
    exact ⟨x.toNat, by omega, by omega⟩

lemma mem_rangeBot {L : ℕ} {x : ℤ} :
    x ∈ rangeBot L ↔ -(L : ℤ) ≤ x ∧ x ≤ (L : ℤ) := by
  simp only [rangeBot, List.mem_map, List.mem_range]
  constructor
  · rintro ⟨n, hn, rfl⟩
    omega
  · rintro ⟨h0, hL⟩
    exact ⟨(x + L).toNat, by omega, by omega⟩

lemma length_lhsStep_le {c0 θ : ℚ} {aeq : ℚ → ℚ → Bool}
    {s : List (ℤ × Mat2)} {m : Mat2} :
    (lhsStep c0 θ aeq s m).length ≤ s.length + 1 := by
  unfold lhsStep
  split_ifs <;> simp

lemma length_lhsFold_le {c0 θ : ℚ} {aeq : ℚ → ℚ → Bool} :
    ∀ {ts : List Mat2} {s : List (ℤ × Mat2)},
      (ts.foldl (lhsStep c0 θ aeq) s).length ≤ s.length + ts.length := by
  intro ts
  induction ts with
  | nil => intro s; simp
  | cons m ts ih =>
    intro s
    rw [List.foldl_cons]
    calc ((ts.foldl (lhsStep c0 θ aeq) (lhsStep c0 θ aeq s m)).length)
        ≤ (lhsStep c0 θ aeq s m).length + ts.length := ih
      _ ≤ s.length + 1 + ts.length :=
          Nat.add_le_add_right length_lhsStep_le _
      _ = s.length + (m :: ts).length := by simp; omega

lemma nodup_keys_lhsStep {c0 θ : ℚ} {aeq : ℚ → ℚ → Bool}
    {s : List (ℤ × Mat2)} {m : Mat2} (h : (s.map Prod.fst).Nodup) :
    ((lhsStep c0 θ aeq s m).map Prod.fst).Nodup := by
  unfold lhsStep
  split_ifs with h1 h2 h3 h4
  · exact h
  · exact h
  · exact h
  · exact h
  · rw [List.map_append]
    refine List.Nodup.append h (List.nodup_singleton _) ?_
    intro x hx hxk
    obtain rfl : x = hashKey θ (lhsVal m c0) := by simpa using hxk
    exact h4 (lookup_isSome_iff.mpr hx)

lemma nodup_keys_lhsFold {c0 θ : ℚ} {aeq : ℚ → ℚ → Bool} :
    ∀ {ts : List Mat2} {s : List (ℤ × Mat2)}, (s.map Prod.fst).Nodup →
      ((ts.foldl (lhsStep c0 θ aeq) s).map Prod.fst).Nodup := by
  intro ts
  induction ts with
  | nil => intro s h; exact h
  | cons m ts ih =>
    intro s h
    rw [List.foldl_cons]
    exact ih (nodup_keys_lhsStep h)

/-- C8: (i) an LHS table never stores more keys than the number of
candidate `(a, b, c, d)` tuples enumerated; (ii) for nested search limits
`L1 ≤ L2` (same constant and threshold), every key of the `L1` table is a
key of the `L2` table; (iii) hence the key-set cardinality is monotonically
non-decreasing in the search limit. -/
theorem lhs_table_size_bound_and_monotone (c0 θ : ℚ) (aeq : ℚ → ℚ → Bool) :
    (∀ top bot : List ℤ,
      (buildLHSTable top bot c0 θ aeq).length ≤ (lhsTuples top bot).length) ∧
    (∀ L1 L2 : ℕ, L1 ≤ L2 → ∀ k : ℤ,
      k ∈ (buildLHSTable (rangeTop L1) (rangeBot L1) c0 θ aeq).map Prod.fst →
      k ∈ (buildLHSTable (rangeTop L2) (rangeBot L2) c0 θ aeq).map Prod.fst) ∧
    (∀ L1 L2 : ℕ, L1 ≤ L2 →
      ((buildLHSTable (rangeTop L1) (rangeBot L1) c0 θ aeq).map Prod.fst).length ≤
        ((buildLHSTable (rangeTop L2) (rangeBot L2) c0 θ aeq).map Prod.fst).length) := by
  have hsub : ∀ L1 L2 : ℕ, L1 ≤ L2 → ∀ k : ℤ,
      k ∈ (buildLHSTable (rangeTop L1) (rangeBot L1) c0 θ aeq).map Prod.fst →
      k ∈ (buildLHSTable (rangeTop L2) (rangeBot L2) c0 θ aeq).map Prod.fst := by
    intro L1 L2 hL k hk
    rcases mem_keys_buildLHSTable.mp hk with ⟨m, hm, hacc, hkey⟩
    refine mem_keys_buildLHSTable.mpr ⟨m, ?_, hacc, hkey⟩
    rcases mem_lhsTuples.mp hm with ⟨ha, hb, hc, hd⟩
    refine mem_lhsTuples.mpr ⟨?_, ?_, ?_, ?_⟩
    · rcases mem_rangeTop.mp ha with ⟨h0, h1⟩
      exact mem_rangeTop.mpr ⟨h0, by omega⟩
    · rcases mem_rangeTop.mp hb with ⟨h0, h1⟩
      exact mem_rangeTop.mpr ⟨h0, by omega⟩
    · rcases mem_rangeBot.mp hc with ⟨h0, h1⟩
      exact mem_rangeBot.mpr ⟨by omega, by omega⟩
    · rcases mem_rangeBot.mp hd with ⟨h0, h1⟩
      exact mem_rangeBot.mpr ⟨by omega, by omega⟩
  refine ⟨fun top bot => ?_, hsub, fun L1 L2 hL => ?_⟩
  · have := @length_lhsFold_le c0 θ aeq (lhsTuples top bot) []
    simpa [buildLHSTable] using this
  · set l1 := (buildLHSTable (rangeTop L1) (rangeBot L1) c0 θ aeq).map Prod.fst
    set l2 := (buildLHSTable (rangeTop L2) (rangeBot L2) c0 θ aeq).map Prod.fst
    have h1 : l1.Nodup := nodup_keys_lhsFold (by simp)
    have hss : l1.toFinset ⊆ l2.toFinset := by
      intro k hk
      rw [List.mem_toFinset] at hk ⊢
      exact hsub L1 L2 hL k hk
    calc l1.length = l1.toFinset.card := (List.toFinset_card_of_nodup h1).symm
      _ ≤ l2.toFinset.card := Finset.card_le_card hss
      _ ≤ l2.length := l2.toFinset_card_le

/-- Witness for C8 at concrete limits `L1 = 1 ≤ L2 = 2`, constant `1/3`,
threshold `1`: the size bound for the limit-1 ranges, and key `1` of the
limit-1 table is a key of the limit-2 table. -/
theorem lhs_table_size_bound_and_monotone_witness :
    ((buildLHSTable (rangeTop 1) (rangeBot 1) (1/3) 1 (fun _ _ => false)).length ≤
      (lhsTuples (rangeTop 1) (rangeBot 1)).length) ∧
    ((1 : ℤ) ∈ (buildLHSTable (rangeTop 1) (rangeBot 1) (1/3) 1
        (fun _ _ => false)).map Prod.fst) ∧
    ((1 : ℤ) ∈ (buildLHSTable (rangeTop 2) (rangeBot 2) (1/3) 1
        (fun _ _ => false)).map Prod.fst) ∧
    (((buildLHSTable (rangeTop 1) (rangeBot 1) (1/3) 1
        (fun _ _ => false)).map Prod.fst).length ≤
      ((buildLHSTable (rangeTop 2) (rangeBot 2) (1/3) 1
        (fun _ _ => false)).map Prod.fst).length) :=
  ⟨(lhs_table_size_bound_and_monotone (1/3) 1 (fun _ _ => false)).1
      (rangeTop 1) (rangeBot 1),
    by with_unfolding_all exact of_decide_eq_true rfl,
    (lhs_table_size_bound_and_monotone (1/3) 1 (fun _ _ => false)).2.1
      1 2 (by decide) 1 (by with_unfolding_all exact of_decide_eq_true rfl),
    (lhs_table_size_bound_and_monotone (1/3) 1 (fun _ _ => false)).2.2
      1 2 (by decide)⟩

/-! ## Lemmas about the partitioner -/

lemma workerSlice_zero {α : Type} (l : List α) (tile N : ℕ) (hN : N ≠ 0) :
    workerSlice l tile (N + 1) 0 = l.take tile := by
  unfold workerSlice pySlice
  rw [if_neg (by omega)]
  simp

lemma workerSlice_succ {α : Type} (l : List α) (tile N i : ℕ) (hN : 1 ≤ N) :
    workerSlice l tile (N + 1) (i + 1) = workerSlice (l.drop tile) tile N i := by
  unfold workerSlice pySlice pySliceFrom
  have e1 : (i + 1) * tile = i * tile + tile := by ring
  have e2 : (i + 2) * tile = i * tile + tile + tile := by ring
  rcases eq_or_ne i (N - 1) with heq | hi
  · rw [if_pos (by omega), if_pos heq, List.drop_drop, e1, Nat.add_comm tile (i * tile)]
  · rw [if_neg (by omega), if_neg hi, List.drop_drop]
    have e3 : (i + 1 + 1) * tile - (i + 1) * tile = tile := by
      rw [show (i + 1 + 1) * tile = (i + 2) * tile from by ring, e2, e1]
      omega
    have e4 : (i + 1) * tile - i * tile = tile := by rw [e1]; omega
    rw [e3, e4, e1, Nat.add_comm tile (i * tile)]

lemma workerSlice_flatten {α : Type} :
    ∀ (N : ℕ) (l : List α) (tile : ℕ), 1 ≤ N → l.length = N * tile →
      ((List.range N).map fun i => workerSlice l tile N i).flatten = l := by
  intro N
  induction N with
  | zero => intro l tile hN; omega
  | succ N ih =>
    intro l tile _ hlen
    rcases Nat.eq_zero_or_pos N with rfl | hN
    · have h1 : List.range 1 = [0] := rfl
      rw [h1, List.map_cons, List.map_nil, List.flatten_cons, List.flatten_nil]
      unfold workerSlice pySliceFrom
      simp
    · rw [List.range_succ_eq_map, List.map_cons, List.map_map]
      have hcomp : ((fun i => workerSlice l tile (N + 1) i) ∘ Nat.succ) =
          fun i => workerSlice (l.drop tile) tile N i := by
        funext i
        exact workerSlice_succ l tile N i hN
      rw [hcomp, workerSlice_zero l tile N (by omega), List.flatten_cons,
        ih (l.drop tile) tile hN (by rw [List.length_drop, hlen]; ring_nf; omega)]
      exact List.take_append_drop tile l

/-- C5: worker `i` of `N` receives, for each partitioned dimension with
tile size `tile`, the Python slice `[i*tile : (i+1)*tile)` of that
dimension's range — except the last worker (`i = N-1`), which receives from
`(N-1)*tile` through the end — and when the dimension's length is exactly
`N * tile`, concatenating all workers' slices in worker-index order
reproduces the full range exactly (full coverage, no overlap). -/
theorem worker_partition_coverage (l : List ℤ) (tile N : ℕ)
    (hN : 1 ≤ N) (hlen : l.length = N * tile) :
    (∀ i, i < N - 1 →
      workerSlice l tile N i = pySlice l (i * tile) ((i + 1) * tile)) ∧
    workerSlice l tile N (N - 1) = pySliceFrom l ((N - 1) * tile) ∧
    ((List.range N).map fun i => workerSlice l tile N i).flatten = l := by
  refine ⟨fun i hi => ?_, ?_, workerSlice_flatten N l tile hN hlen⟩
  · unfold workerSlice
    rw [if_neg (by omega)]
  · unfold workerSlice
    rw [if_pos rfl]

/-- Witness for C5: four coefficients split across two workers with tile
size `2`; the concatenation of both workers' slices is the original range. -/
theorem worker_partition_coverage_witness :
    (1 ≤ 2 ∧ ([0, 1, 2, 3] : List ℤ).length = 2 * 2) ∧
      (workerSlice ([0, 1, 2, 3] : List ℤ) 2 2 0 = pySlice ([0, 1, 2, 3] : List ℤ) 0 (1 * 2) ∧
        workerSlice ([0, 1, 2, 3] : List ℤ) 2 2 1 = pySliceFrom ([0, 1, 2, 3] : List ℤ) (1 * 2) ∧
        ((List.range 2).map fun i => workerSlice ([0, 1, 2, 3] : List ℤ) 2 2 i).flatten =
          [0, 1, 2, 3]) :=
  ⟨⟨by decide, by decide⟩,
    by
      have h := worker_partition_coverage [0, 1, 2, 3] 2 2 (by decide) (by decide)
      exact ⟨by simpa using h.1 0 (by decide), h.2.1, h.2.2⟩⟩

lemma getD_set_ne {s k : ℕ} {x : List ℤ} {pa : List (List ℤ)} (h : s ≠ k) :
    (pa.set s x).getD k [] = pa.getD k [] := by
  simp [List.getD_eq_getElem?_getD, List.getElem?_set_ne h]

lemma applySplitsAux_getD_lt {numCores index : ℕ} :
    ∀ (splits : List ℕ) (s : ℕ) (pa : List (List ℤ)) (k : ℕ), k < s →
      (applySplitsAux numCores index splits s pa).getD k [] = pa.getD k [] := by
  intro splits
  induction splits with
  | nil => intro s pa k _; rfl
  | cons t rest ih =>
    intro s pa k hk
    rw [applySplitsAux, ih (s + 1) _ k (by omega), getD_set_ne (by omega)]

lemma applySplitsAux_length {numCores index : ℕ} :
    ∀ (splits : List ℕ) (s : ℕ) (pa : List (List ℤ)),
      (applySplitsAux numCores index splits s pa).length = pa.length := by
  intro splits
  induction splits with
  | nil => intro s pa; rfl
  | cons t rest ih =>
    intro s pa
    rw [applySplitsAux, ih (s + 1), List.length_set]

lemma applySplitsAux_getD_touch {numCores index : ℕ} :
    ∀ (splits : List ℕ) (s : ℕ) (pa : List (List ℤ)) (j : ℕ),
      j < splits.length → s + j < pa.length →
      (applySplitsAux numCores index splits s pa).getD (s + j) [] =
        workerSlice (pa.getD (s + j) []) (splits.getD j 0) numCores index := by
  intro splits
  induction splits with
  | nil => intro s pa j hj _; simp at hj
  | cons t rest ih =>
    intro s pa j hj hlen
    cases j with
    | zero =>
      rw [Nat.add_zero] at hlen ⊢
      rw [applySplitsAux, applySplitsAux_getD_lt rest (s + 1) _ s (by omega)]
      have : (pa.set s (workerSlice (pa.getD s []) t numCores index)).getD s [] =
          workerSlice (pa.getD s []) t numCores index := by
        simp [List.getD_eq_getElem?_getD, List.getElem?_set_self hlen]
      rw [this]
      rfl
    | succ j' =>
      have e : s + (j' + 1) = (s + 1) + j' := by omega
      rw [applySplitsAux, e,
        ih (s + 1) _ j' (by simpa using hj) (by rw [List.length_set]; omega),
        getD_set_ne (by omega)]
      rfl

lemma applySplitsAux_getD_ge {numCores index : ℕ} :
    ∀ (splits : List ℕ) (s : ℕ) (pa : List (List ℤ)) (k : ℕ),
      s + splits.length ≤ k →
      (applySplitsAux numCores index splits s pa).getD k [] = pa.getD k [] := by
  intro splits
  induction splits with
  | nil => intro s pa k _; rfl
  | cons t rest ih =>
    intro s pa k hk
    simp only [List.length_cons] at hk
    rw [applySplitsAux, ih (s + 1) _ k (by omega), getD_set_ne (by omega)]

/-- C10: the slicing loop of `multi_core_enumeration` rebinds the caller's
`poly_a` in place: afterwards, for every tiled dimension `s` of the split
specification, `poly_a[s]` holds worker `index`'s slice of the original
`poly_a[s]`; every dimension beyond the split specification, and all of
`poly_b`, are unchanged, and `poly_a` keeps its length. -/
theorem multi_core_slices_polyA_in_place (splits : List ℕ)
    (numCores index : ℕ) (polyA polyB : List (List ℤ))
    (hlen : splits.length ≤ polyA.length) :
    (multiCoreSliceState splits numCores index polyA polyB).2 = polyB ∧
    (applySplits splits numCores index polyA).length = polyA.length ∧
    (∀ s, s < splits.length →
      (applySplits splits numCores index polyA).getD s [] =
        workerSlice (polyA.getD s []) (splits.getD s 0) numCores index) ∧
    (∀ s, splits.length ≤ s →
      (applySplits splits numCores index polyA).getD s [] = polyA.getD s []) := by
  refine ⟨rfl, applySplitsAux_length splits 0 polyA, fun s hs => ?_, fun s hs => ?_⟩
  · have := @applySplitsAux_getD_touch numCores index splits 0 polyA s hs
      (by omega)
    simpa [applySplits] using this
  · exact applySplitsAux_getD_ge splits 0 polyA s (by omega)

/-- Witness for C10: splits `[1]`, two workers, worker `0`,
`poly_a = [[1, 2], [3]]`, `poly_b = [[5]]`: dimension `0` becomes the
worker-0 slice `[1]`, dimension `1` and `poly_b` are untouched. -/
theorem multi_core_slices_polyA_in_place_witness :
    ((1 : ℕ) ≤ 2) ∧
    (multiCoreSliceState [1] 2 0 [[1, 2], [3]] [[5]]).2 = [[5]] ∧
    (applySplits [1] 2 0 [[1, 2], [3]]).length = ([[1, 2], [3]] : List (List ℤ)).length ∧
    (applySplits [1] 2 0 [[1, 2], [3]]).getD 0 [] =
      workerSlice (([[1, 2], [3]] : List (List ℤ)).getD 0 []) 1 2 0 ∧
    (applySplits [1] 2 0 [[1, 2], [3]]).getD 1 [] = ([[1, 2], [3]] : List (List ℤ)).getD 1 [] :=
  ⟨by decide,
    by
      have h := multi_core_slices_polyA_in_place [1] 2 0 [[1, 2], [3]] [[5]] (by decide)
      exact ⟨h.1, h.2.1, h.2.2.1 0 (by decide), h.2.2.2 1 (by decide)⟩⟩

/-! ## The wrapper's aggregation (C4) -/

/-- C4 counterexample: with two workers, each returning a one-element
result list, `multi_core_enumeration_wrapper` returns the list of the two
per-worker lists (`pool.map`'s value), not their flat concatenation. -/
theorem wrapper_flat_concat_counterexample :
    multiCoreEnumerationWrapper
        (fun i => [⟨⟨1, 0, 0, 1⟩, [Int.ofNat i], []⟩]) 2 ≠
      .single (((List.range 2).map
        fun i => [(⟨⟨1, 0, 0, 1⟩, [Int.ofNat i], []⟩ : Match)]).flatten) := by
  decide

/-- C4 amended: for `num_cores = 1` the wrapper returns the single worker's
flat result list `func(0)`; for any other worker count it returns the list
of per-worker result lists `[func(0), …, func(N-1)]` in worker-index order,
unflattened — callers must concatenate them if a flat list is wanted. -/
theorem wrapper_aggregation (func : ℕ → List Match) (numCores : ℕ) :
    (numCores = 1 →
      multiCoreEnumerationWrapper func numCores = .single (func 0)) ∧
    (numCores ≠ 1 →
      multiCoreEnumerationWrapper func numCores =
        .perWorker ((List.range numCores).map func)) := by
  unfold multiCoreEnumerationWrapper
  exact ⟨fun h => by rw [if_pos h], fun h => by rw [if_neg h]⟩

/-- Witness for the amended C4 at one and at two workers. -/
theorem wrapper_aggregation_witness :
    multiCoreEnumerationWrapper (fun _ => []) 1 = .single [] ∧
      multiCoreEnumerationWrapper (fun _ => []) 2 = .perWorker [[], []] :=
  ⟨(wrapper_aggregation (fun _ => []) 1).1 rfl,
    (wrapper_aggregation (fun _ => []) 2).2 (by decide)⟩

/-! ## Lemmas about the verifier -/

lemma refineResults_mem {c0 : ℚ} {aeq : ℚ → ℚ → Bool}
    {genA genB : List ℤ → ℕ → List ℤ}
    {gcfEval : List ℤ → List ℤ → Except Unit ℚ} {fmt : ℚ → String} :
    ∀ {rs out : List Match},
      refineResults c0 aeq genA genB gcfEval fmt rs = .ok out →
      ∀ {r : Match},
        r ∈ out ↔ r ∈ rs ∧ refineOne c0 aeq genA genB gcfEval fmt r = .ok true := by
  intro rs
  induction rs with
  | nil =>
    intro out h r
    simp only [refineResults] at h
    injection h with h
    subst h
    simp
  | cons r' rs ih =>
    intro out h r
    simp only [refineResults] at h
    split at h
    · cases h
    next keep hk =>
      split at h
      · cases h
      next rest hrest =>
        injection h with h
        subst h
        cases keep with
        | true =>
          rw [if_pos rfl]
          constructor
          · intro hmem
            rcases List.mem_cons.mp hmem with rfl | hmem'
            · exact ⟨List.mem_cons_self _ _, hk⟩
            · rcases (ih hrest).mp hmem' with ⟨hrs, hone⟩
              exact ⟨List.mem_cons_of_mem _ hrs, hone⟩
          · rintro ⟨hmem, hone⟩
            rcases List.mem_cons.mp hmem with rfl | hrs
            · exact List.mem_cons_self _ _
            · exact List.mem_cons_of_mem _ ((ih hrest).mpr ⟨hrs, hone⟩)
        | false =>
          rw [if_neg (by simp)]
          constructor
          · intro hmem
            rcases (ih hrest).mp hmem with ⟨hrs, hone⟩
            exact ⟨List.mem_cons_of_mem _ hrs, hone⟩
          · rintro ⟨hmem, hone⟩
            rcases List.mem_cons.mp hmem with rfl | hrs
            · rw [hk] at hone
              injection hone with hone
              cases hone
            · exact (ih hrest).mpr ⟨hrs, hone⟩

lemma refineOne_catches_division {c0 : ℚ} {aeq : ℚ → ℚ → Bool}
    {genA genB : List ℤ → ℕ → List ℤ}
    {gcfEval : List ℤ → List ℤ → Except Unit ℚ} {fmt : ℚ → String}
    {r : Match}
    (h : mobiusDen r.lhs_coefs c0 = 0 ∨ mobiusDen r.lhs_coefs 1 = 0) :
    refineOne c0 aeq genA genB gcfEval fmt r = .ok false := by
  rcases h with h | h
  · unfold refineOne
    rw [show mobiusApply r.lhs_coefs c0 = .error () from by
      unfold mobiusApply; rw [if_pos h]]
  · unfold refineOne
    cases hm : mobiusApply r.lhs_coefs c0 with
    | error e => rfl
    | ok val =>
      rw [show mobiusApply r.lhs_coefs 1 = .error () from by
        unfold mobiusApply; rw [if_pos h]]

/-- C3 counterexample: the claim says a candidate-evaluation failure in the
first enumeration is caught locally and never propagates out of
`find_hits`.  With an evaluator that fails on its (single) candidate, the
embedded `find_hits` returns that error: no handler exists in
`__first_enumeration`, so the failure escapes. -/
theorem candidate_failure_escapes_find_hits :
    findHits (1/2) (fun _ _ => false) (fun _ n => List.replicate n 1)
        (fun _ n => List.replicate n 1) (fun _ _ => .error ()) (fun _ => "")
        [] 1 [[1]] [[1]] = .error () := by
  with_unfolding_all rfl

/-- C3 amended: only the Verifier's two Möbius-transform evaluations run
under an exception handler — a division by zero in either (denominator
zero at the constant or at `x = 1`) is caught and the single candidate
rejected (`.ok false`), never propagated; evaluation failures in the first
enumeration, and in the Verifier's continued-fraction re-evaluation, are
under no handler and propagate out of `find_hits`. -/
theorem verifier_catches_mobius_division_errors (c0 : ℚ)
    (aeq : ℚ → ℚ → Bool) (genA genB : List ℤ → ℕ → List ℤ)
    (gcfEval : List ℤ → List ℤ → Except Unit ℚ) (fmt : ℚ → String)
    (r : Match)
    (h : mobiusDen r.lhs_coefs c0 = 0 ∨ mobiusDen r.lhs_coefs 1 = 0) :
    refineOne c0 aeq genA genB gcfEval fmt r = .ok false :=
  refineOne_catches_division h

/-- Witness for the amended C3: the transform `[[1, 0], [1, -1]]` has
`c + d = 0`, so its evaluation at `x = 1` divides by zero; the verifier
rejects the candidate instead of propagating. -/
theorem verifier_catches_mobius_division_errors_witness :
    (mobiusDen (⟨1, 0, 1, -1⟩ : Mat2) (1/2) = 0 ∨
      mobiusDen (⟨1, 0, 1, -1⟩ : Mat2) 1 = 0) ∧
    refineOne (1/2) (fun _ _ => false) (fun _ n => List.replicate n 1)
        (fun _ n => List.replicate n 1) (fun _ _ => .ok (1/2)) (fun _ => "")
        ⟨⟨1, 0, 1, -1⟩, [], []⟩ = .ok false :=
  ⟨Or.inr (by with_unfolding_all exact of_decide_eq_true rfl),
    verifier_catches_mobius_division_errors (1/2) (fun _ _ => false)
      (fun _ n => List.replicate n 1) (fun _ n => List.replicate n 1)
      (fun _ _ => .ok (1/2)) (fun _ => "") ⟨⟨1, 0, 1, -1⟩, [], []⟩
      (Or.inr (by with_unfolding_all exact of_decide_eq_true rfl))⟩

/-- C6: a match that survives the Verifier's Möbius-evaluation and
constant-independence checks is promoted to a confirmed result if and only
if the formatted decimal string (`fmt`, modelling `mpmath.nstr(·, 100)`)
of the transform's value at the constant is character-for-character
identical to the formatted string of the regenerated length-1000
continued fraction's value. -/
theorem verifier_promotion_iff_string_equality (c0 : ℚ)
    (aeq : ℚ → ℚ → Bool) (genA genB : List ℤ → ℕ → List ℤ)
    (gcfEval : List ℤ → List ℤ → Except Unit ℚ) (fmt : ℚ → String)
    (rs out : List Match) (r : Match) (val v1 : ℚ)
    (hok : refineResults c0 aeq genA genB gcfEval fmt rs = .ok out)
    (hr : r ∈ rs)
    (hval : mobiusApply r.lhs_coefs c0 = .ok val)
    (hv1 : mobiusApply r.lhs_coefs 1 = .ok v1)
    (hindep : aeq val v1 = false) :
    r ∈ out ↔ ∃ rhsVal,
      gcfEval (genA r.rhs_an_poly 1000) (genB r.rhs_bn_poly 1000) = .ok rhsVal ∧
        fmt val = fmt rhsVal := by
  rw [refineResults_mem hok]
  constructor
  · rintro ⟨_, hone⟩
    simp only [refineOne, hval, hv1, hindep, Bool.false_eq_true,
      if_false] at hone
    cases hg : gcfEval (genA r.rhs_an_poly 1000) (genB r.rhs_bn_poly 1000) with
    | error e =>
      simp only [hg] at hone
      exact Except.noConfusion hone
    | ok rhsVal =>
      simp only [hg] at hone
      injection hone with hone
      exact ⟨rhsVal, rfl, of_decide_eq_true hone⟩
  · rintro ⟨rhsVal, hg, heq⟩
    refine ⟨hr, ?_⟩
    simp only [refineOne, hval, hv1, hindep, Bool.false_eq_true,
      if_false, hg]
    simp [heq]

/-- Witness for C6: the identity transform at constant `1/2` against an
evaluator returning `1/2`; promotion happens because the formatted strings
agree. -/
theorem verifier_promotion_iff_string_equality_witness :
    (refineResults (1/2) (fun _ _ => false) (fun _ n => List.replicate n 1)
        (fun _ n => List.replicate n 1) (fun _ _ => .ok (1/2)) (fun _ => "")
        [⟨⟨1, 0, 0, 1⟩, [1], [1]⟩] = .ok [⟨⟨1, 0, 0, 1⟩, [1], [1]⟩]) ∧
    ((⟨⟨1, 0, 0, 1⟩, [1], [1]⟩ : Match) ∈
        ([⟨⟨1, 0, 0, 1⟩, [1], [1]⟩] : List Match) ↔
      ∃ rhsVal : ℚ, (fun (_ _ : List ℤ) => (Except.ok (1/2) : Except Unit ℚ))
          (List.replicate 1000 (1 : ℤ)) (List.replicate 1000 (1 : ℤ)) =
            .ok rhsVal ∧
        (fun (_ : ℚ) => "") ((1 : ℚ)/2) = (fun (_ : ℚ) => "") rhsVal) :=
  ⟨by with_unfolding_all rfl,
    verifier_promotion_iff_string_equality (1/2) (fun _ _ => false)
      (fun _ n => List.replicate n 1) (fun _ n => List.replicate n 1)
      (fun _ _ => .ok (1/2)) (fun _ => "")
      [⟨⟨1, 0, 0, 1⟩, [1], [1]⟩] [⟨⟨1, 0, 0, 1⟩, [1], [1]⟩]
      ⟨⟨1, 0, 0, 1⟩, [1], [1]⟩ (1/2) 1
      (by with_unfolding_all rfl) (by decide)
      (by with_unfolding_all rfl) (by with_unfolding_all rfl) rfl⟩

/-- C9: a match whose LHS matrix has `c + d = 0` is discarded by the
Verifier even when the transform is well-defined at the constant
(denominator non-zero there): evaluating the transform at `x = 1` inside
the constant-independence check divides by zero, and the surrounding
handler rejects the candidate. -/
theorem verifier_discards_undefined_at_one (c0 : ℚ)
    (aeq : ℚ → ℚ → Bool) (genA genB : List ℤ → ℕ → List ℤ)
    (gcfEval : List ℤ → List ℤ → Except Unit ℚ) (fmt : ℚ → String)
    (rs out : List Match) (r : Match)
    (hok : refineResults c0 aeq genA genB gcfEval fmt rs = .ok out)
    (hcd : (r.lhs_coefs.c : ℚ) + r.lhs_coefs.d = 0)
    (hden : mobiusDen r.lhs_coefs c0 ≠ 0) :
    r ∉ out := by
  intro hmem
  rcases (refineResults_mem hok).mp hmem with ⟨_, hone⟩
  have h1 : mobiusDen r.lhs_coefs 1 = 0 := by
    unfold mobiusDen
    rw [mul_one]
    exact hcd
  rw [refineOne_catches_division (Or.inr h1)] at hone
  injection hone with hone
  cases hone

/-- Witness for C9: the transform `[[1, 0], [1, -1]]` at constant `1/2` is
finite (`(1·(1/2)+0)/(1·(1/2)-1) = -1`) yet its match is discarded because
`c + d = 0`. -/
theorem verifier_discards_undefined_at_one_witness :
    (refineResults (1/2) (fun _ _ => false) (fun _ n => List.replicate n 1)
        (fun _ n => List.replicate n 1) (fun _ _ => .ok (1/2)) (fun _ => "")
        [⟨⟨1, 0, 1, -1⟩, [], []⟩] = .ok []) ∧
    (⟨⟨1, 0, 1, -1⟩, [], []⟩ : Match) ∉ ([] : List Match) :=
  ⟨by with_unfolding_all rfl,
    verifier_discards_undefined_at_one (1/2) (fun _ _ => false)
      (fun _ n => List.replicate n 1) (fun _ n => List.replicate n 1)
      (fun _ _ => .ok (1/2)) (fun _ => "")
      [⟨⟨1, 0, 1, -1⟩, [], []⟩] [] ⟨⟨1, 0, 1, -1⟩, [], []⟩
      (by with_unfolding_all rfl)
      (by with_unfolding_all exact of_decide_eq_true rfl)
      (by with_unfolding_all exact of_decide_eq_true rfl)⟩

/-! ## Lemmas about the first enumeration (C7) -/

lemma createSeriesList_mem_zip {gen : List ℤ → ℕ → List ℤ}
    {coefs : List (List ℤ)} {sn coef : List ℤ}
    (h : (sn, coef) ∈
      ((createSeriesList gen coefs).2.zip (createSeriesList gen coefs).1)) :
    sn = gen coef 32 ∧ (0 : ℤ) ∉ sn := by
  simp only [createSeriesList] at h
  rw [List.zip_map'] at h
  rcases List.mem_map.mp h with ⟨q, hq, hpair⟩
  rcases List.mem_filter.mp hq with ⟨hq_map, hpred⟩
  rcases List.mem_map.mp hq_map with ⟨c, _, rfl⟩
  injection hpair with h1 h2
  subst h1
  subst h2
  exact ⟨rfl, of_decide_eq_true hpred⟩

lemma enumInnerA_mem {gcfEval : List ℤ → List ℤ → Except Unit ℚ}
    {table : List (ℤ × Mat2)} {θ : ℚ} {an aCoef : List ℤ} :
    ∀ {bPairs : List (List ℤ × List ℤ)} {ms : List Match},
      enumInnerA gcfEval table θ an aCoef bPairs = .ok ms →
      ∀ {m : Match}, m ∈ ms →
        m.rhs_an_poly = aCoef ∧ ∃ bn, (bn, m.rhs_bn_poly) ∈ bPairs := by
  intro bPairs
  induction bPairs with
  | nil =>
    intro ms h m hm
    simp only [enumInnerA] at h
    injection h with h
    subst h
    cases hm
  | cons p rest ih =>
    obtain ⟨bn, bCoef⟩ := p
    intro ms h m hm
    simp only [enumInnerA] at h
    split at h
    · cases h
    next v hv =>
      split at h
      · cases h
      next more hmore =>
        split at h
        next mt hmt =>
          injection h with h
          subst h
          rcases List.mem_cons.mp hm with rfl | hm'
          · exact ⟨rfl, bn, List.mem_cons_self _ _⟩
          · rcases ih hmore hm' with ⟨ha, bn', hb⟩
            exact ⟨ha, bn', List.mem_cons_of_mem _ hb⟩
        next hmt =>
          injection h with h
          subst h
          rcases ih hmore hm with ⟨ha, bn', hb⟩
          exact ⟨ha, bn', List.mem_cons_of_mem _ hb⟩

lemma enumOuterA_mem {genA : List ℤ → ℕ → List ℤ}
    {gcfEval : List ℤ → List ℤ → Except Unit ℚ}
    {table : List (ℤ × Mat2)} {θ : ℚ} {bPairs : List (List ℤ × List ℤ)} :
    ∀ {aCoefs : List (List ℤ)} {ms : List Match},
      enumOuterA genA gcfEval table θ bPairs aCoefs = .ok ms →
      ∀ {m : Match}, m ∈ ms →
        ((0 : ℤ) ∉ genA m.rhs_an_poly 32) ∧
          ∃ bn, (bn, m.rhs_bn_poly) ∈ bPairs := by
  intro aCoefs
  induction aCoefs with
  | nil =>
    intro ms h m hm
    simp only [enumOuterA] at h
    injection h with h
    subst h
    cases hm
  | cons aCoef rest ih =>
    intro ms h m hm
    simp only [enumOuterA] at h
    split at h
    · exact ih h hm
    next hzero =>
      split at h
      · cases h
      next here hhere =>
        split at h
        · cases h
        next more hmore =>
          injection h with h
          subst h
          rcases List.mem_append.mp hm with hm' | hm'
          · rcases enumInnerA_mem hhere hm' with ⟨ha, hb⟩
            refine ⟨?_, hb⟩
            rw [ha]
            exact hzero
          · exact ih hmore hm'

lemma enumInnerB_mem {gcfEval : List ℤ → List ℤ → Except Unit ℚ}
    {table : List (ℤ × Mat2)} {θ : ℚ} {bn bCoef : List ℤ} :
    ∀ {aPairs : List (List ℤ × List ℤ)} {ms : List Match},
      enumInnerB gcfEval table θ bn bCoef aPairs = .ok ms →
      ∀ {m : Match}, m ∈ ms →
        m.rhs_bn_poly = bCoef ∧ ∃ an, (an, m.rhs_an_poly) ∈ aPairs := by
  intro aPairs
  induction aPairs with
  | nil =>
    intro ms h m hm
    simp only [enumInnerB] at h
    injection h with h
    subst h
    cases hm
  | cons p rest ih =>
    obtain ⟨an, aCoef⟩ := p
    intro ms h m hm
    simp only [enumInnerB] at h
    split at h
    · cases h
    next v hv =>
      split at h
      · cases h
      next more hmore =>
        split at h
        next mt hmt =>
          injection h with h
          subst h
          rcases List.mem_cons.mp hm with rfl | hm'
          · exact ⟨rfl, an, List.mem_cons_self _ _⟩
          · rcases ih hmore hm' with ⟨hb, an', ha⟩
            exact ⟨hb, an', List.mem_cons_of_mem _ ha⟩
        next hmt =>
          injection h with h
          subst h
          rcases ih hmore hm with ⟨hb, an', ha⟩
          exact ⟨hb, an', List.mem_cons_of_mem _ ha⟩

lemma enumOuterB_mem {genB : List ℤ → ℕ → List ℤ}
    {gcfEval : List ℤ → List ℤ → Except Unit ℚ}
    {table : List (ℤ × Mat2)} {θ : ℚ} {aPairs : List (List ℤ × List ℤ)} :
    ∀ {bCoefs : List (List ℤ)} {ms : List Match},
      enumOuterB genB gcfEval table θ aPairs bCoefs = .ok ms →
      ∀ {m : Match}, m ∈ ms →
        ((0 : ℤ) ∉ genB m.rhs_bn_poly 32) ∧
          ∃ an, (an, m.rhs_an_poly) ∈ aPairs := by
  intro bCoefs
  induction bCoefs with
  | nil =>
    intro ms h m hm
    simp only [enumOuterB] at h
    injection h with h
    subst h
    cases hm
  | cons bCoef rest ih =>
    intro ms h m hm
    simp only [enumOuterB] at h
    split at h
    · exact ih h hm
    next hzero =>
      split at h
      · cases h
      next here hhere =>
        split at h
        · cases h
        next more hmore =>
          injection h with h
          subst h
          rcases List.mem_append.mp hm with hm' | hm'
          · rcases enumInnerB_mem hhere hm' with ⟨hb, ha⟩
            refine ⟨?_, ha⟩
            rw [hb]
            exact hzero
          · exact ih hmore hm'

/-- C7: every match produced by the first enumeration carries coefficient
assignments whose generated length-32 series, on both the `a_n` and `b_n`
sides, contain no zero term: zero-containing assignments are filtered
before any continued-fraction evaluation, on either the cached or the
streamed side, for any `poly_a` and `poly_b`. -/
theorem matches_have_zero_free_series (genA genB : List ℤ → ℕ → List ℤ)
    (gcfEval : List ℤ → List ℤ → Except Unit ℚ)
    (table : List (ℤ × Mat2)) (θ : ℚ) (polyA polyB : List (List ℤ))
    (results : List Match)
    (hok : firstEnumeration genA genB gcfEval table θ polyA polyB = .ok results) :
    ∀ m ∈ results,
      (0 : ℤ) ∉ genA m.rhs_an_poly 32 ∧ (0 : ℤ) ∉ genB m.rhs_bn_poly 32 := by
  intro m hm
  simp only [firstEnumeration] at hok
  split at hok
  · rcases enumOuterA_mem hok hm with ⟨ha, bn, hb⟩
    rcases createSeriesList_mem_zip hb with ⟨hbn, hzero⟩
    subst hbn
    exact ⟨ha, hzero⟩
  · rcases enumOuterB_mem hok hm with ⟨hb, an, ha⟩
    rcases createSeriesList_mem_zip ha with ⟨han, hzero⟩
    subst han
    exact ⟨hzero, hb⟩

/-- Witness for C7 at a concrete run producing two matches: constant
series generators, an evaluator returning `5/2`, and a table containing
key `2`. -/
theorem matches_have_zero_free_series_witness :
    (firstEnumeration (fun _ n => List.replicate n 1) (fun _ n => List.replicate n 1)
        (fun _ _ => (.ok (5/2) : Except Unit ℚ)) [(2, ⟨1, 0, 0, 1⟩)] 1 [[1]] [[1]] =
      .ok [⟨⟨1, 0, 0, 1⟩, [1], [1]⟩, ⟨⟨1, 0, 0, 1⟩, [1], [-1]⟩]) ∧
    ((⟨⟨1, 0, 0, 1⟩, [1], [1]⟩ : Match) ∈
      ([⟨⟨1, 0, 0, 1⟩, [1], [1]⟩, ⟨⟨1, 0, 0, 1⟩, [1], [-1]⟩] : List Match)) ∧
    ((0 : ℤ) ∉ (fun (_ : List ℤ) (n : ℕ) => List.replicate n (1 : ℤ)) [1] 32 ∧
      (0 : ℤ) ∉ (fun (_ : List ℤ) (n : ℕ) => List.replicate n (1 : ℤ)) [1] 32) :=
  ⟨by with_unfolding_all rfl, by decide,
    matches_have_zero_free_series (fun _ n => List.replicate n 1)
      (fun _ n => List.replicate n 1) (fun _ _ => (.ok (5/2) : Except Unit ℚ))
      [(2, ⟨1, 0, 0, 1⟩)] 1 [[1]] [[1]]
      [⟨⟨1, 0, 0, 1⟩, [1], [1]⟩, ⟨⟨1, 0, 0, 1⟩, [1], [-1]⟩]
      (by with_unfolding_all rfl)
      ⟨⟨1, 0, 0, 1⟩, [1], [1]⟩ (by decide)⟩

end GCFSearch
